import Mathlib

/-!
Shallow embedding of the `CBigValue` class from `src/BigValue/BigValue.cpp`
(arbitrary-size numeric value: sign flag, scale field, little-endian
magnitude byte buffer), together with theorems settling the specification
claims about its decoders and arithmetic.

Bytes are modelled as `Nat` values; every store into a `uint8_t` cell takes
`% 256` exactly where the C assignment truncates.  A buffer is a `List Nat`
whose length is `m_nBufferSize`; the null pointer of a default-constructed
value is the empty list.  Writes through a checked index (`writeAdd`)
return `none` when the C code would write out of the allocated buffer's
bounds.
-/

/-- State of a `CBigValue` object: magnitude buffer (little-endian bytes),
`m_nScale`, and `m_bNegative`. -/
structure CBigValue where
  buffer : List Nat
  scale : Nat
  negative : Bool
  deriving DecidableEq, Repr

/-- Embedding of `CBigValue::CreateBuffer`: a fresh zero-filled buffer of the given size. -/
def CreateBuffer (n : Nat) : List Nat := List.replicate n 0

/-- Embedding of `CBigValue::GrowBuffer`: if no buffer, create; if the requested size is larger,
zero-filled buffer of the new size with the old bytes in the low positions;
otherwise no-op. -/
def GrowBuffer (v : CBigValue) (n : Nat) : CBigValue :=
  if v.buffer.length = 0 then { v with buffer := CreateBuffer n }
  else if n > v.buffer.length then
    { v with buffer := v.buffer ++ List.replicate (n - v.buffer.length) 0 }
  else v

/-- The mask-generation loop in the odd branch of `CBigValue::fromIEEEMantissa`:
`mask = 1; for (shift = 1; shift < bits; shift++) mask |= (1 << shift);`. -/
def genMask (bits : Nat) : Nat :=
  (List.range' 1 (bits - 1)).foldl (fun m s => m ||| (1 <<< s)) 1

/-- Byte count written by `CBigValue::fromIEEEMantissa`:
`count = size/8`, plus one when `size % 8 != 0`. -/
def ieeeCount (size : Nat) : Nat :=
  size / 8 + (if size % 8 ≠ 0 then 1 else 0)

/-- Body of the store loop of `CBigValue::fromIEEEMantissa` for index `i`:
the even case XORs the top bit of byte 0, the odd case ANDs byte 0 with
`genMask ((size - (size/8)*i) - 1)`, and all other bytes are ANDed with 0xFF.
Each result is truncated mod 256 by the `uint8_t` store. -/
def ieeeStoredByte (mantissa : List Nat) (size i : Nat) : Nat :=
  if i = 0 ∧ size % 8 = 0 then
    (mantissa.getD 0 0 ^^^ 128) % 256
  else if i = 0 then
    (mantissa.getD i 0 &&& genMask (size - (size / 8) * i - 1)) % 256
  else
    (mantissa.getD i 0 &&& 255) % 256

/-- Embedding of `CBigValue::fromIEEEMantissa`: the sequence of bytes the routine stores
into `m_pBuffer[0 .. count-1]` for a given source byte sequence and bit width. -/
def fromIEEEMantissa (mantissa : List Nat) (size : Nat) : List Nat :=
  (List.range (ieeeCount size)).map (ieeeStoredByte mantissa size)

/-- Writing a byte sequence into positions `0 .. bytes.length - 1` of a
(larger) buffer, leaving the remaining high positions untouched. -/
def writeBytes (buf bytes : List Nat) : List Nat :=
  bytes ++ buf.drop bytes.length

/-- Embedding of `CBigValue::CBigValue(const double)`: input is the 8 little-endian bytes of
the double's in-memory representation (the constructor type-puns `&value`).
Sign from bit 7 of byte 7; scale from `(data[7]^0x80) << 1` plus the high
nibble of byte 6; magnitude via `fromIEEEMantissa(data + 1, 52)` into an
8-byte buffer. -/
def bigFromDouble (data : List Nat) : CBigValue :=
  { buffer := writeBytes (CreateBuffer 8) (fromIEEEMantissa (data.drop 1) 52)
    scale := ((data.getD 7 0 ^^^ 128) <<< 1)
      + ((data.getD 6 0 &&& (15 <<< 4)) >>> 4)
    negative := decide (data.getD 7 0 &&& 128 ≠ 0) }

/-- Embedding of `CBigValue::fromFFP32`: 4 big-endian input bytes.  All-zero input sets
scale 0 and `m_bNegative = true` (sic) on a fresh zero buffer; otherwise sign
comes from bit 7 of byte 3, scale is `data[3] ^ 0x80`, and the mantissa bytes
are stored reversed with byte 0 XORed with 0x80. -/
def fromFFP32 (v : CBigValue) (data : List Nat) : CBigValue :=
  if data.getD 0 0 = 0 ∧ data.getD 1 0 = 0 ∧ data.getD 2 0 = 0 ∧ data.getD 3 0 = 0 then
    { buffer := CreateBuffer 4, scale := 0, negative := true }
  else
    { buffer := [(data.getD 2 0 &&& 255) % 256,
                 (data.getD 1 0 &&& 255) % 256,
                 (data.getD 0 0 ^^^ 128) % 256, 0]
      scale := data.getD 3 0 ^^^ 128
      negative := decide (data.getD 3 0 &&& 128 ≠ 0) }

/-- Embedding of `CBigValue::fromQuadruple`: 16 big-endian input bytes into a 16-byte
buffer; sign from bit 7 of byte 0, 15-bit exponent field from bytes 0 and 1,
magnitude via `fromIEEEMantissa(data + 2, 112)`. -/
def fromQuadruple (v : CBigValue) (data : List Nat) : CBigValue :=
  { buffer := writeBytes (CreateBuffer 16) (fromIEEEMantissa (data.drop 2) 112)
    scale := (((data.getD 0 0 &&& 127) <<< 8) ^^^ 128) + data.getD 1 0
    negative := decide (data.getD 0 0 &&& 128 ≠ 0) }

/-- Checked emulation of `value.m_pBuffer[i] += v` on a `uint8_t` buffer:
`none` when the index is outside the allocated buffer. -/
def writeAdd (l : List Nat) (i v : Nat) : Option (List Nat) :=
  if i < l.length then some (l.set i ((l.getD i 0 + v) % 256)) else none

/-- The byte-position loop of `CBigValue::operator +`, compiled with an
explicit iteration count (the C loop runs while `i < m || j < n`, i.e.
exactly `max m n` iterations): accumulate the 16-bit carry register, store
its low byte, shift it right by 8. -/
def addLoopAux (a b : List Nat) : Nat → Nat → Nat → List Nat → Option (List Nat × Nat)
  | 0, _, carry, out => some (out, carry)
  | steps + 1, i, carry, out =>
    let x := if a.length ≤ i then b.getD i 0
             else if b.length ≤ i then a.getD i 0
             else a.getD i 0 + b.getD i 0
    let c := (carry + x) % 65536
    match writeAdd out i (c &&& 255) with
    | some out2 => addLoopAux a b steps (i + 1) (c >>> 8) out2
    | none => none

/-- Embedding of `CBigValue::operator +`: output buffer `CreateBuffer(m_nBufferSize + 1)`
(sized from the left operand only), the carry loop over both operands, and a
final `+=` of the leftover carry into byte `value.m_nBufferSize - 1`.
Returns `none` when a buffer write would be out of bounds. -/
def bigAdd (a b : CBigValue) : Option CBigValue :=
  let out := CreateBuffer (a.buffer.length + 1)
  match addLoopAux a.buffer b.buffer (max a.buffer.length b.buffer.length) 0 0 out with
  | none => none
  | some (out2, carry) =>
    if 0 < carry then
      match writeAdd out2 (a.buffer.length + 1 - 1) (carry &&& 255) with
      | some out3 => some { buffer := out3, scale := 0, negative := false }
      | none => none
    else
      some { buffer := out2, scale := 0, negative := false }

/-- Embedding of `CBigValue::operator -`: the source body only declares a default value and
returns it (null buffer, scale 0, positive). -/
def bigSub (a b : CBigValue) : CBigValue :=
  { buffer := [], scale := 0, negative := false }

/-- Embedding of `CBigValue::operator double`: initializes a local `double value = 0.0`
and returns it unconditionally; modelled by the 64-bit pattern of +0.0,
which is 0. -/
def bigToDouble (v : CBigValue) : Nat := 0

/-- Value of a little-endian byte buffer as a natural number. -/
def fromLE : List Nat → Nat
  | [] => 0
  | b :: bs => b + 256 * fromLE bs

/-- The conclusion of the addition claim for an operand pair: the add
succeeds and the result magnitude has one extra byte and reads as the sum. -/
def addOk (a b : CBigValue) : Prop :=
  match bigAdd a b with
  | none => False
  | some r => r.buffer.length = a.buffer.length + 1
      ∧ fromLE r.buffer = fromLE a.buffer + fromLE b.buffer

/-- The 11-bit exponent field of an IEEE double given as its 8 little-endian
representation bytes (claim-side definition, following the spec's words
about the IEEE layout, used only to state preconditions of claims). -/
def expField (data : List Nat) : Nat :=
  ((data.getD 7 0 &&& 127) <<< 4) + ((data.getD 6 0) >>> 4)

/-- A normalized positive IEEE double, as an 8-byte little-endian
representation: sign bit clear and exponent field in 1..2046 (claim-side
definition following the spec's words, used to state C1's precondition). -/
def isNormalizedPositiveRep (data : List Nat) : Prop :=
  data.length = 8 ∧ (∀ x ∈ data, x < 256)
    ∧ (data.getD 7 0).testBit 7 = false
    ∧ 1 ≤ expField data ∧ expField data ≤ 2046

instance (data : List Nat) : Decidable (isNormalizedPositiveRep data) := by
  unfold isNormalizedPositiveRep
  infer_instance

/-! ## Helper lemmas -/

lemma getD_lt_256 (l : List Nat) (h : ∀ x ∈ l, x < 256) (i : Nat) :
    l.getD i 0 < 256 := by
  by_cases hi : i < l.length
  · rw [List.getD_eq_getElem _ _ hi]
    exact h _ (List.getElem_mem hi)
  · rw [List.getD_eq_default _ _ (Nat.le_of_not_lt hi)]
    norm_num

lemma xor128_lt_256 (b : Nat) (hb : b < 256) : b ^^^ 128 < 256 :=
  Nat.xor_lt_two_pow (n := 8) (by norm_num [hb]) (by norm_num)

lemma land255_mod (b : Nat) : b &&& 255 = b % 256 := by
  have h := Nat.and_pow_two_sub_one_eq_mod b 8
  norm_num at h
  exact h

lemma land255_eq (b : Nat) (hb : b < 256) : b &&& 255 = b := by
  rw [land255_mod, Nat.mod_eq_of_lt hb]

set_option maxRecDepth 4000 in
lemma xor128_split : ∀ b : Nat, b < 256 →
    b ^^^ 128 = if b.testBit 7 then b - 128 else b + 128 := by decide

set_option maxRecDepth 4000 in
lemma and128_testBit : ∀ b : Nat, b < 256 →
    decide (b &&& 128 ≠ 0) = b.testBit 7 := by decide

lemma writeAdd_mid (pre rest : List Nat) (v : Nat) :
    writeAdd (pre ++ 0 :: rest) pre.length v = some (pre ++ (v % 256) :: rest) := by
  induction pre with
  | nil => simp [writeAdd]
  | cons p ps ih =>
    simp only [List.cons_append, writeAdd, List.length_cons, List.length_append,
      List.getD_cons_succ, List.set_cons_succ] at ih ⊢
    rw [if_pos (by omega)]
    rw [if_pos (by omega)] at ih
    simpa using ih

lemma fromLE_append_last (l : List Nat) (x : Nat) :
    fromLE (l ++ [x]) = fromLE l + 256 ^ l.length * x := by
  induction l with
  | nil => simp [fromLE]
  | cons b bs ih =>
    show b + 256 * fromLE (bs ++ [x]) = b + 256 * fromLE bs + 256 ^ (bs.length + 1) * x
    rw [ih, pow_succ]
    ring

/-- Correctness of the byte-position loop of `operator +` on operands of equal
length: starting at index `i` with the output positions below `i` already
holding `pre` and the rest still zero, the loop fills the next `k` positions
with bytes whose little-endian value, together with the outgoing carry,
equals the sum of the remaining operand bytes and the incoming carry. -/
lemma addLoopAux_spec (a b : List Nat) (hab : a.length = b.length)
    (ha : ∀ x ∈ a, x < 256) (hb : ∀ x ∈ b, x < 256) :
    ∀ k i (pre : List Nat) c, k + i = a.length → i = pre.length → c ≤ 1 →
      ∃ body c2,
        addLoopAux a b k i c (pre ++ List.replicate (k + 1) 0)
            = some (pre ++ body ++ [0], c2)
          ∧ body.length = k ∧ c2 ≤ 1
          ∧ fromLE body + 256 ^ k * c2 = fromLE (a.drop i) + fromLE (b.drop i) + c := by
  intro k
  induction k with
  | zero =>
    intro i pre c hk hi hc
    refine ⟨[], c, ?_, rfl, hc, ?_⟩
    · simp [addLoopAux]
    · have hia : i = a.length := by omega
      have hib : i = b.length := by omega
      rw [hia, List.drop_length, hab, List.drop_length]
      simp [fromLE]
  | succ k ih =>
    intro i pre c hk hi hc
    have hia : i < a.length := by omega
    have hib : i < b.length := by omega
    have hax := getD_lt_256 a ha i
    have hbx := getD_lt_256 b hb i
    have hcmod : (c + (a.getD i 0 + b.getD i 0)) % 65536
        = c + (a.getD i 0 + b.getD i 0) := Nat.mod_eq_of_lt (by omega)
    have hwrite : writeAdd (pre ++ List.replicate (k + 1 + 1) 0) i
          ((c + (a.getD i 0 + b.getD i 0)) % 65536 &&& 255)
        = some ((pre ++ [(c + (a.getD i 0 + b.getD i 0)) % 256])
            ++ List.replicate (k + 1) 0) := by
      rw [hcmod, land255_mod, List.replicate_succ (n := k + 1), hi, writeAdd_mid,
        Nat.mod_mod, List.append_assoc, List.singleton_append]
    have hstep :
        addLoopAux a b (k + 1) i c (pre ++ List.replicate (k + 1 + 1) 0)
          = addLoopAux a b k (i + 1)
              (((c + (a.getD i 0 + b.getD i 0)) % 65536) >>> 8)
              ((pre ++ [(c + (a.getD i 0 + b.getD i 0)) % 256])
                ++ List.replicate (k + 1) 0) := by
      rw [addLoopAux]
      simp only [if_neg (by omega : ¬ a.length ≤ i), if_neg (by omega : ¬ b.length ≤ i)]
      rw [hwrite]
    have hshift : ((c + (a.getD i 0 + b.getD i 0)) % 65536) >>> 8
        = (c + (a.getD i 0 + b.getD i 0)) / 256 := by
      rw [hcmod, Nat.shiftRight_eq_div_pow]
    obtain ⟨body2, c2, heq, hlen2, hc2, hsum⟩ :=
      ih (i + 1) (pre ++ [(c + (a.getD i 0 + b.getD i 0)) % 256])
        ((c + (a.getD i 0 + b.getD i 0)) / 256)
        (by omega) (by simp; omega) (by omega)
    refine ⟨(c + (a.getD i 0 + b.getD i 0)) % 256 :: body2, c2, ?_, by simp [hlen2], hc2, ?_⟩
    · rw [hstep, hshift, heq]
      simp [List.append_assoc]
    · have hda : a.drop i = a.getD i 0 :: a.drop (i + 1) := by
        rw [List.getD_eq_getElem _ _ hia]
        exact List.drop_eq_getElem_cons hia
      have hdb : b.drop i = b.getD i 0 :: b.drop (i + 1) := by
        rw [List.getD_eq_getElem _ _ hib]
        exact List.drop_eq_getElem_cons hib
      rw [hda, hdb]
      show (c + (a.getD i 0 + b.getD i 0)) % 256 + 256 * fromLE body2
            + 256 ^ (k + 1) * c2
          = (a.getD i 0 + 256 * fromLE (a.drop (i + 1)))
            + (b.getD i 0 + 256 * fromLE (b.drop (i + 1))) + c
      have hmul := congrArg (fun t => 256 * t) hsum
      simp only [Nat.mul_add] at hmul
      have hpow : 256 ^ (k + 1) * c2 = 256 * (256 ^ k * c2) := by ring
      generalize hq : (256 : Nat) ^ k * c2 = q at hmul hpow
      omega

/-! ## Claim theorems -/

/-- Claim C1: the double constructor maps the two distinct normalized positive
doubles 1.0 (bit pattern 0x3FF0000000000000, little-endian bytes below) and
the immediately following representable double (low mantissa byte 1) to the
identical (sign, scale, magnitude) triple, because `fromIEEEMantissa` is
called on `data + 1` (dropping the low mantissa byte and including the
sign/exponent byte) and the scale reconstruction shifts by 1 instead of 4.
The decomposition therefore cannot reconstruct the 64-bit representation,
refuting the claimed bit-exact round trip. -/
theorem double_decomposition_not_injective :
    isNormalizedPositiveRep [0, 0, 0, 0, 0, 0, 240, 63]
      ∧ isNormalizedPositiveRep [1, 0, 0, 0, 0, 0, 240, 63]
      ∧ ([0, 0, 0, 0, 0, 0, 240, 63] : List Nat) ≠ [1, 0, 0, 0, 0, 0, 240, 63]
      ∧ bigFromDouble [0, 0, 0, 0, 0, 0, 240, 63]
          = bigFromDouble [1, 0, 0, 0, 0, 0, 240, 63] := by
  decide

/-- Claim C2: adding a 1-byte-magnitude value to a 4-byte-magnitude value
makes `operator +` allocate only `len(a) + 1 = 2` output bytes (the left
operand's size plus one, not `max + 1 = 5`), after which the loop attempts to
store to output index 2: an out-of-bounds write, surfaced as `none` by the
checked embedding. -/
theorem add_mismatched_buffers_out_of_bounds :
    bigAdd ⟨[0], 0, false⟩ ⟨[0, 0, 0, 0], 0, false⟩ = none := by decide

/-- Claim C3, counterexample: with the even bit width 16 and a first source
byte whose top bit is clear (0x00), the stored first byte is 0x80 — the XOR
with 0x80 sets the bit rather than clearing it — so the stored byte differs
from the first source byte with its top bit cleared (0x00 &&& 0x7F = 0x00). -/
theorem even_mantissa_not_cleared_cex :
    fromIEEEMantissa [0, 18] 16 = [128, 18]
      ∧ (fromIEEEMantissa [0, 18] 16).getD 0 0 ≠ List.getD [0, 18] 0 0 &&& 127 := by
  decide

/-- Claim C4: with the odd bit width 23 the mask-generation loop produces
`genMask 22 = 2^22 - 1` (the inline comment asks for a mask of "less than
byte" size), so ANDing the first source byte 0xFF with it stores 0xFF
verbatim instead of the claimed mask to the low `23 mod 8 = 7` bits (0x7F);
the remaining bytes are copied verbatim. -/
theorem odd_mantissa_not_masked :
    fromIEEEMantissa [255, 170, 187] 23 = [255, 170, 187]
      ∧ genMask 22 = 2 ^ 22 - 1
      ∧ (fromIEEEMantissa [255, 170, 187] 23).getD 0 0 ≠ List.getD [255, 170, 187] 0 0 &&& 127 := by
  decide

/-- Claim C5: decoding the all-zero 4-byte FFP32 input yields an all-zero
4-byte magnitude and scale 0, but the code sets the sign flag to `true`
(`m_bNegative = true`) even though its own comment says "positive zero" —
contradicting the claimed positive sign. -/
theorem ffp32_zero_sets_negative :
    fromFFP32 ⟨[], 0, false⟩ [0, 0, 0, 0] = ⟨[0, 0, 0, 0], 0, true⟩ := by decide

/-- Claim C6, counterexample: on the nonzero FFP32 input with mantissa bytes
0x00 0x22 0x33 and exponent byte 0x41 (sign bit clear), the decoder stores
scale 0xC1 = 0x41 XOR 0x80 (the XOR sets the already-clear sign bit instead
of clearing it) and stores 0x80 = 0x00 XOR 0x80 as the most significant
mantissa byte (altering a mantissa bit), contradicting both the claimed
"exponent byte with sign bit cleared" and the claimed raw, unaltered
mantissa store. -/
theorem ffp32_nonzero_cex :
    (fromFFP32 ⟨[], 0, false⟩ [0, 34, 51, 65]).scale ≠ List.getD [0, 34, 51, 65] 3 0 &&& 127
      ∧ (fromFFP32 ⟨[], 0, false⟩ [0, 34, 51, 65]).buffer.getD 2 0 ≠ List.getD [0, 34, 51, 65] 0 0
      ∧ fromFFP32 ⟨[], 0, false⟩ [0, 34, 51, 65] = ⟨[51, 34, 128, 0], 193, false⟩ := by
  decide

/-- Claim C7: `operator -` on magnitudes [5] and [3] (both positive, scale 0)
returns the default-constructed value — null buffer, scale 0, positive —
whose magnitude reads as 0, not the difference 2; the source has no working
subtraction implementation. -/
theorem sub_returns_default_value :
    bigSub ⟨[5], 0, false⟩ ⟨[3], 0, false⟩ = ⟨[], 0, false⟩
      ∧ fromLE (bigSub ⟨[5], 0, false⟩ ⟨[3], 0, false⟩).buffer
          ≠ fromLE [5] - fromLE [3] := by
  decide

/-- Claim C9, counterexample: a value decoded from the quadruple format has a
16-byte magnitude buffer; re-running the FFP32 decoder on it replaces the
buffer with a 4-byte one — the capacity shrinks, contradicting the claimed
grow-only invariant. -/
theorem capacity_shrinks_cex :
    (fromQuadruple ⟨[], 0, false⟩ (List.replicate 16 0)).buffer.length = 16
      ∧ (fromFFP32 (fromQuadruple ⟨[], 0, false⟩ (List.replicate 16 0))
            (List.replicate 4 0)).buffer.length = 4 := by
  decide

/-- Claim C10: the narrowing conversion `operator double` returns exactly 0.0
(64-bit pattern 0) for every value, whatever its sign, scale, and magnitude. -/
theorem to_double_always_zero (v : CBigValue) : bigToDouble v = 0 := rfl

/-- Witness for claim C10 at a concrete nonzero value: even with a nonzero
magnitude, nonzero scale, and negative sign, the conversion yields 0. -/
theorem to_double_always_zero_witness : bigToDouble ⟨[7, 9], 3, true⟩ = 0 :=
  to_double_always_zero ⟨[7, 9], 3, true⟩

/-- Claim C8: for operands with sign flag false, scale 0, byte-valued
magnitude buffers of the same length, `operator +` succeeds (no write is out
of bounds), the output magnitude has one extra high-order byte, and its
little-endian value is exactly the sum of the two operand magnitudes — the
final carry, if any, lands in the extra high-order byte. -/
theorem add_equal_length_correct (a b : CBigValue)
    (hlen : a.buffer.length = b.buffer.length)
    (ha : ∀ x ∈ a.buffer, x < 256) (hb : ∀ x ∈ b.buffer, x < 256)
    (hna : a.negative = false) (hnb : b.negative = false)
    (hsa : a.scale = 0) (hsb : b.scale = 0) :
    addOk a b := by
  obtain ⟨body, c2, heq, hblen, hc2, hsum⟩ :=
    addLoopAux_spec a.buffer b.buffer hlen ha hb a.buffer.length 0 [] 0
      (by omega) rfl (by omega)
  rw [List.drop_zero, List.drop_zero, Nat.add_zero] at hsum
  simp only [List.nil_append] at heq
  have hmax : max a.buffer.length b.buffer.length = a.buffer.length := by omega
  have hadd : bigAdd a b = some ⟨body ++ [c2], 0, false⟩ := by
    have hcase : c2 = 0 ∨ c2 = 1 := by omega
    rcases hcase with rfl | rfl
    · unfold bigAdd
      rw [hmax]
      simp only [CreateBuffer]
      rw [heq]
      rfl
    · unfold bigAdd
      rw [hmax]
      simp only [CreateBuffer]
      rw [heq]
      have hw : writeAdd (body ++ [0]) (a.buffer.length + 1 - 1) ((1 : Nat) &&& 255)
          = some (body ++ [1]) := by
        rw [show a.buffer.length + 1 - 1 = body.length by omega]
        rw [show ((1 : Nat) &&& 255) = 1 from rfl]
        exact writeAdd_mid body [] 1
      show ((match writeAdd (body ++ [0]) (a.buffer.length + 1 - 1) ((1 : Nat) &&& 255) with
            | some out3 => some { buffer := out3, scale := 0, negative := false }
            | none => none : Option CBigValue))
          = some { buffer := body ++ [1], scale := 0, negative := false }
      rw [hw]
  rw [addOk, hadd]
  refine ⟨by simp [hblen], ?_⟩
  rw [fromLE_append_last, hblen, ← hsum]

/-- Witness for claim C8 at the 1-byte magnitudes [0xFF] and [0x01]: the
addition succeeds with a 2-byte output reading as 0xFF + 0x01 = 0x100, and
the output magnitude is exactly [0x00, 0x01] — the carry propagated into
the new high byte. -/
theorem add_equal_length_correct_witness :
    addOk ⟨[255], 0, false⟩ ⟨[1], 0, false⟩
      ∧ bigAdd ⟨[255], 0, false⟩ ⟨[1], 0, false⟩ = some ⟨[0, 1], 0, false⟩ :=
  ⟨add_equal_length_correct ⟨[255], 0, false⟩ ⟨[1], 0, false⟩
      (by decide) (by decide) (by decide) rfl rfl rfl rfl,
    by decide⟩

/-- Claim C3, amended: for a bit width that is a positive multiple of 8 and a
source sequence of bytes (each < 256) with at least bitWidth/8 of them, the
routine stores exactly bitWidth/8 bytes; the first stored byte is the first
source byte XOR 0x80 — its top bit flipped, which equals "top bit cleared"
exactly when the source's top bit was set — and every remaining stored byte
is copied verbatim from the source. -/
theorem even_mantissa_stores (mantissa : List Nat) (size : Nat)
    (hsz : size % 8 = 0) (hpos : 0 < size)
    (hlen : size / 8 ≤ mantissa.length)
    (hbytes : ∀ x ∈ mantissa, x < 256) :
    (fromIEEEMantissa mantissa size).length = size / 8
      ∧ (fromIEEEMantissa mantissa size).getD 0 0 = mantissa.getD 0 0 ^^^ 128
      ∧ ∀ i, 0 < i → i < size / 8 →
          (fromIEEEMantissa mantissa size).getD i 0 = mantissa.getD i 0 := by
  have hcount : ieeeCount size = size / 8 := by
    simp [ieeeCount, hsz]
  have hflen : (fromIEEEMantissa mantissa size).length = size / 8 := by
    simp [fromIEEEMantissa, hcount]
  have hdiv : 0 < size / 8 := Nat.div_pos (by omega) (by norm_num)
  refine ⟨hflen, ?_, ?_⟩
  · rw [List.getD_eq_getElem _ _ (by omega)]
    simp only [fromIEEEMantissa, List.getElem_map, List.getElem_range]
    rw [ieeeStoredByte, if_pos ⟨rfl, hsz⟩]
    exact Nat.mod_eq_of_lt (xor128_lt_256 _ (getD_lt_256 _ hbytes 0))
  · intro i hi hilt
    rw [List.getD_eq_getElem _ _ (by omega)]
    simp only [fromIEEEMantissa, List.getElem_map, List.getElem_range]
    rw [ieeeStoredByte, if_neg (by omega), if_neg (by omega)]
    rw [land255_eq _ (getD_lt_256 _ hbytes i)]
    exact Nat.mod_eq_of_lt (getD_lt_256 _ hbytes i)

/-- Witness for the amended claim C3 at the concrete even width 16 and source
bytes [0x80, 0x12]: two bytes are stored, the first is 0x80 XOR 0x80 = 0x00
(here the top bit was set, so the flip clears it) and the second is copied
verbatim. -/
theorem even_mantissa_stores_witness :
    (fromIEEEMantissa [128, 18] 16).length = 16 / 8
      ∧ (fromIEEEMantissa [128, 18] 16).getD 0 0 = List.getD [128, 18] 0 0 ^^^ 128
      ∧ (fromIEEEMantissa [128, 18] 16).getD 1 0 = List.getD [128, 18] 1 0 := by
  have h := even_mantissa_stores [128, 18] 16 (by decide) (by decide) (by decide) (by decide)
  exact ⟨h.1, h.2.1, h.2.2 1 (by decide) (by decide)⟩

/-- Claim C6, amended: for every 4-byte FFP32 input (bytes < 256) that is not
all zero, the decoder takes the sign from bit 7 of the exponent byte (the
last input byte), sets the scale to the exponent byte XOR 0x80 — the sign
bit cleared when it was set, but set when it was clear — and stores the
three mantissa bytes reversed into increasing-significance order with input
bytes 1 and 2 verbatim and the most significant mantissa byte (input byte 0)
XORed with 0x80, i.e. with its top bit flipped. -/
theorem ffp32_nonzero_decode (v : CBigValue) (data : List Nat)
    (hbytes : ∀ x ∈ data, x < 256)
    (hnz : ¬(data.getD 0 0 = 0 ∧ data.getD 1 0 = 0
              ∧ data.getD 2 0 = 0 ∧ data.getD 3 0 = 0)) :
    (fromFFP32 v data).negative = (data.getD 3 0).testBit 7
      ∧ (fromFFP32 v data).scale
          = (if (data.getD 3 0).testBit 7 then data.getD 3 0 - 128
             else data.getD 3 0 + 128)
      ∧ (fromFFP32 v data).buffer
          = [data.getD 2 0, data.getD 1 0,
             if (data.getD 0 0).testBit 7 then data.getD 0 0 - 128
             else data.getD 0 0 + 128, 0] := by
  have h0 := getD_lt_256 data hbytes 0
  have h1 := getD_lt_256 data hbytes 1
  have h2 := getD_lt_256 data hbytes 2
  have h3 := getD_lt_256 data hbytes 3
  rw [fromFFP32, if_neg hnz]
  refine ⟨and128_testBit _ h3, ?_, ?_⟩
  · exact xor128_split _ h3
  · rw [land255_eq _ h2, land255_eq _ h1,
      Nat.mod_eq_of_lt h2, Nat.mod_eq_of_lt h1,
      Nat.mod_eq_of_lt (xor128_lt_256 _ h0), xor128_split _ h0]

/-- Witness for the amended claim C6 at the concrete nonzero input
[0x00, 0x22, 0x33, 0x41]: sign false (bit 7 of 0x41 clear), scale
0x41 + 0x80 = 0xC1, magnitude [0x33, 0x22, 0x80, 0x00]. -/
theorem ffp32_nonzero_decode_witness :
    (fromFFP32 ⟨[], 0, false⟩ [0, 34, 51, 65]).negative = Nat.testBit 65 7
      ∧ (fromFFP32 ⟨[], 0, false⟩ [0, 34, 51, 65]).scale
          = (if Nat.testBit 65 7 then 65 - 128 else 65 + 128)
      ∧ (fromFFP32 ⟨[], 0, false⟩ [0, 34, 51, 65]).buffer
          = [51, 34, if Nat.testBit 0 7 then 0 - 128 else 0 + 128, 0] :=
  ffp32_nonzero_decode ⟨[], 0, false⟩ [0, 34, 51, 65] (by decide) (by decide)

/-- Claim C9, amended: the magnitude capacity is not monotone across decoders;
each decoder fully reinitializes the buffer to exactly its format's size
(4 bytes for FFP32, 16 for quadruple), so re-running a smaller-format
decoder on a value previously decoded from a larger format shrinks the
capacity; only `GrowBuffer` never decreases it. -/
theorem decoder_capacity_exact :
    (∀ v data, (fromFFP32 v data).buffer.length = 4)
      ∧ (∀ v data, (fromQuadruple v data).buffer.length = 16)
      ∧ (∀ v n, v.buffer.length ≤ (GrowBuffer v n).buffer.length) := by
  refine ⟨fun v data => ?_, fun v data => ?_, fun v n => ?_⟩
  · rw [fromFFP32]
    split <;> simp [CreateBuffer]
  · have hm : (fromIEEEMantissa (data.drop 2) 112).length = 14 := by
      simp [fromIEEEMantissa, ieeeCount]
    simp [fromQuadruple, writeBytes, CreateBuffer, hm]
  · rw [GrowBuffer]
    split
    · simp_all
    · split
      · simp only [List.length_append, List.length_replicate]
        omega
      · exact le_rfl

/-- Witness for the amended claim C9 at concrete inputs: the FFP32 decoder on
a 16-byte-buffer value yields a 4-byte buffer, the quadruple decoder yields a
16-byte buffer, and growing a 4-byte buffer to a requested size 8 does not
shrink it. -/
theorem decoder_capacity_exact_witness :
    (fromFFP32 ⟨List.replicate 16 0, 0, false⟩ [1, 2, 3, 4]).buffer.length = 4
      ∧ (fromQuadruple ⟨[], 0, false⟩ (List.replicate 16 5)).buffer.length = 16
      ∧ (⟨[1, 2, 3, 4], 0, false⟩ : CBigValue).buffer.length
          ≤ (GrowBuffer ⟨[1, 2, 3, 4], 0, false⟩ 8).buffer.length :=
  ⟨decoder_capacity_exact.1 ⟨List.replicate 16 0, 0, false⟩ [1, 2, 3, 4],
    decoder_capacity_exact.2.1 ⟨[], 0, false⟩ (List.replicate 16 5),
    decoder_capacity_exact.2.2 ⟨[1, 2, 3, 4], 0, false⟩ 8⟩
